import Mathlib

/-!
Shallow embedding of `src/.config/waybar/scripts/autobar.py`, a
per-monitor Waybar supervisor for Hyprland, together with theorems about
its desired-set computation, process supervision and reconciliation loop.

Conventions of the embedding:
* JSON records coming back from `hyprctl -j monitors` / `hyprctl -j clients`
  are modelled as structures whose fields are `Option`-valued: `none` stands
  for a missing key (or a JSON `null`, which `dict.get` conflates with it).
* `run_json` either fails (subprocess error or JSON decode error, the
  `except` branch returning `None`) or produces the parsed list; this is an
  `Option (List _)` argument threaded to the pure functions.
* Python dictionaries are association lists with insert-overwrite
  (`dictInsert`); the global `procs` dict is an explicit `Table` value.
* OS side effects (terminate/kill/poll/sleep, config writes, launches)
  are recorded in an event trace; fallible OS calls are driven by
  oracle fields on the process handle / an `Except` launch result, and
  the `try/except` blocks of the source are explicit catches over them.
-/

namespace Autobar

/-- The `activeWorkspace` / `workspace` sub-object: a JSON object that may
carry an `id` field. -/
structure WorkspaceRef where
  id : Option Int
deriving DecidableEq, Repr

/-- One record of `hyprctl -j monitors`. -/
structure Monitor where
  disabled : Option Bool
  name : Option String
  description : Option String
  idField : Option Int
  activeWorkspace : Option WorkspaceRef
deriving DecidableEq, Repr

/-- One record of `hyprctl -j clients`. -/
structure Client where
  workspace : Option WorkspaceRef
  mapped : Option Bool
  hidden : Option Bool
deriving DecidableEq, Repr

/-- Python `a or b` on strings coming out of `dict.get`: a missing key or
an empty string falls through to `b`. -/
def pyOr (a : Option String) (b : String) : String :=
  match a with
  | some s => if s = "" then b else s
  | none => b

/-- Python `str(m.get("id"))`: `str(None)` is `"None"`. -/
def strOfOptInt : Option Int → String
  | some i => toString i
  | none => "None"

/-- `m.get("name") or m.get("description") or str(m.get("id"))`. -/
def monName (m : Monitor) : String :=
  pyOr m.name (pyOr m.description (strOfOptInt m.idField))

/-- `(m.get("activeWorkspace") or {}).get("id")`. -/
def activeWsId (m : Monitor) : Option Int :=
  match m.activeWorkspace with
  | none => none
  | some aw => aw.id

/-- `(c.get("workspace") or {}).get("id")`. -/
def clientWs (c : Client) : Option Int :=
  match c.workspace with
  | none => none
  | some w => w.id

/-- `get_monitors()`: `[]` when `run_json` failed or returned an empty
(falsy) list, otherwise the monitors whose `disabled` field is not
literally `True`. -/
def get_monitors : Option (List Monitor) → List Monitor
  | none => []
  | some data => if data.isEmpty then [] else data.filter fun m => !(m.disabled == some true)

/-- `get_clients()`: `[]` when `run_json` failed or returned an empty list. -/
def get_clients : Option (List Client) → List Client
  | none => []
  | some data => if data.isEmpty then [] else data

/-- Python `dict` insertion on an association list: overwrite in place when
the key exists, else append. -/
def dictInsert {β : Type} (k : String) (v : β) : List (String × β) → List (String × β)
  | [] => [(k, v)]
  | e :: rest => if e.1 = k then (k, v) :: rest else e :: dictInsert k v rest

/-- Loop body of the `ws_by_mon` accumulation: `if wsid is not None and
name: ws_by_mon[name] = wsid`. -/
def wsStep (d : List (String × Int)) (m : Monitor) : List (String × Int) :=
  match activeWsId m with
  | none => d
  | some w => if monName m = "" then d else dictInsert (monName m) w d

/-- The `ws_by_mon` dictionary: monitor name → active workspace id, mapped
only when the workspace id exists and the name is truthy. -/
def wsByMon (mons : List Monitor) : List (String × Int) :=
  mons.foldl wsStep []

/-- Loop body of the `counts_by_ws` accumulation: skip a client without a
workspace id, an unmapped client (`c.get("mapped", False)` falsy) and a
hidden client (`c.get("hidden", False)` truthy); otherwise bump the tally
at its workspace id. -/
def countStep (acc : Int → Nat) (c : Client) : Int → Nat :=
  match clientWs c with
  | none => acc
  | some ws =>
    if !(c.mapped.getD false) then acc
    else if c.hidden.getD false then acc
    else fun w => if w = ws then acc w + 1 else acc w

/-- The `counts_by_ws` dictionary, read through `counts_by_ws.get(ws, 0)`:
one increment per client with a workspace id that is mapped and not
hidden. -/
def countsByWs (clients : List Client) : Int → Nat :=
  clients.foldl countStep (fun _ => 0)

/-- Loop body of the final `need` accumulation. -/
def needStep (counts : Int → Nat) (s : Finset String) (p : String × Int) : Finset String :=
  if 0 < counts p.2 then insert p.1 s else s

/-- The final `need` set of `monitors_needing_waybar`, built from the
`ws_by_mon` items and the tally. -/
def needSet (d : List (String × Int)) (counts : Int → Nat) : Finset String :=
  d.foldl (needStep counts) ∅

/-- `monitors_needing_waybar()`, parameterised by the two `run_json`
outcomes of the cycle. -/
def monitors_needing_waybar (mdata : Option (List Monitor))
    (cdata : Option (List Client)) : Finset String :=
  needSet (wsByMon (get_monitors mdata)) (countsByWs (get_clients cdata))

/-- A single client counts toward a workspace tally iff it has a workspace
id, is mapped, and is not hidden (defaults: unmapped, not hidden). -/
def clientCounts (c : Client) : Bool :=
  (clientWs c).isSome && c.mapped.getD false && !(c.hidden.getD false)

/-- Modelled from the spec: the desired set as the spec words it — the
names of retained (non-disabled) monitors whose active workspace's
visible tally is greater than zero. -/
def specDesiredSet (mons : List Monitor) (clients : List Client) : Finset String :=
  (((get_monitors (some mons)).filter fun m =>
      match activeWsId m with
      | none => false
      | some w => decide (0 < countsByWs clients w)).map monName).toFinset

/-- The (name, workspace-id) pairs the `ws_by_mon` loop would insert, in
loop order. -/
def qualPairs (mons : List Monitor) : List (String × Int) :=
  mons.filterMap fun m =>
    match activeWsId m with
    | none => none
    | some w => if monName m = "" then none else some (monName m, w)

/-! ### Process supervision model

A `Proc` is a `subprocess.Popen` handle.  Liveness is an observation of the
OS: `poll` maps an abstract tick count to the exit code `p.poll()` would
report at that moment (`none` = still alive); `idx` is the handle's current
tick, advanced only when wall-clock time passes (the `time.sleep` calls of
`stop_waybar_for`'s wait loop).  `terminateRaises` / `killRaises` are the
oracle outcomes of `p.terminate()` / `p.kill()`. -/

structure Proc where
  poll : Nat → Option Int
  idx : Nat
  terminateRaises : Bool
  killRaises : Bool

/-- `p.poll()` right now. -/
def pollNow (p : Proc) : Option Int := p.poll p.idx

/-- The global `procs` dict: monitor name → `Popen` handle. -/
abbrev Table : Type := List (String × Proc)

/-- `procs.get(mon_name)` / `mon_name in procs`. -/
def lookupTable : Table → String → Option Proc
  | [], _ => none
  | e :: rest, k => if e.1 = k then some e.2 else lookupTable rest k

/-- `procs.pop(mon_name, None)` (key removal; no-op when absent). -/
def eraseTable (t : Table) (k : String) : Table :=
  t.filter fun e => !decide (e.1 = k)

/-- Observable steps of one reconciliation cycle. -/
inductive Event where
  | stopCall (mon : String)
  | terminateEv (mon : String)
  | pollEv
  | sleepEv
  | killEv (mon : String)
  | startCall (mon : String)
  | writeConfigEv (mon : String)
  | launchEv (mon : String)
  | sweepPop (mon : String)
deriving DecidableEq, Repr

/-- The `for _ in range(20): if p.poll() is not None: break; time.sleep(0.05)`
wait loop: polls at tick `i`, sleeping (one tick) while alive.  Returns the
trace and the tick reached when the loop ends. -/
def waitLoop (p : Proc) : Nat → Nat → List Event × Nat
  | i, 0 => ([], i)
  | i, fuel + 1 =>
    if (p.poll i).isSome then ([Event.pollEv], i)
    else
      let r := waitLoop p (i + 1) fuel
      (Event.pollEv :: Event.sleepEv :: r.1, r.2)

/-- `stop_waybar_for(mon_name)`: no-op when no entry exists; otherwise a
graceful terminate, a bounded wait, a forced kill if still alive, with any
error of the `try` block swallowed, and the table entry popped in every
case. -/
def stop_waybar_for (t : Table) (mon : String) : Table × List Event :=
  match lookupTable t mon with
  | none => (t, [Event.stopCall mon])
  | some p =>
    let evs :=
      if (pollNow p).isSome then []
      else if p.terminateRaises then [Event.terminateEv mon]
      else
        let r := waitLoop p p.idx 20
        Event.terminateEv mon ::
          (r.1 ++ if (p.poll r.2).isSome then [] else [Event.killEv mon])
    (eraseTable t mon, Event.stopCall mon :: evs)

/-- Result of a table-mutating step that can also raise: `exc` is the
escaping Python exception (if any), `table` the value of the global `procs`
dict when the step ends, `events` its trace. -/
structure StepRes where
  exc : Option Unit
  table : Table
  events : List Event

/-- `start_waybar_for(mon_name)`: no-op while an entry's process is still
alive (`poll()` re-checked on the handle); otherwise writes the per-monitor
config and launches Waybar, recording the handle.  A raising launch
(`launch = .error _`) escapes after the config write, before any table
update. -/
def start_waybar_for (t : Table) (mon : String) (launch : Except Unit Proc) : StepRes :=
  if ((lookupTable t mon).map fun p => (pollNow p).isNone).getD false then
    ⟨none, t, [Event.startCall mon]⟩
  else
    match launch with
    | .error e => ⟨some e, t, [Event.startCall mon, Event.writeConfigEv mon]⟩
    | .ok q => ⟨none, dictInsert mon q t, [Event.startCall mon, Event.writeConfigEv mon, Event.launchEv mon]⟩

/-- Phase 1 of `reconcile`: `for mon_name in list(procs.keys()): if
mon_name not in needed: stop_waybar_for(mon_name)`. -/
def runStops (needed : List String) : List String → Table → List Event → Table × List Event
  | [], t, evs => (t, evs)
  | k :: ks, t, evs =>
    if k ∈ needed then runStops needed ks t evs
    else
      let r := stop_waybar_for t k
      runStops needed ks r.1 (evs ++ r.2)

/-- Phase 2 of `reconcile`: `for mon_name in needed: start_waybar_for(...)`;
an exception escaping a `start` aborts the remaining iterations. -/
def runStarts (launch : String → Except Unit Proc) : List String → Table → StepRes
  | [], t => ⟨none, t, []⟩
  | mon :: rest, t =>
    if (start_waybar_for t mon (launch mon)).exc.isSome then
      start_waybar_for t mon (launch mon)
    else
      ⟨(runStarts launch rest (start_waybar_for t mon (launch mon)).table).exc,
        (runStarts launch rest (start_waybar_for t mon (launch mon)).table).table,
        (start_waybar_for t mon (launch mon)).events ++
          (runStarts launch rest (start_waybar_for t mon (launch mon)).table).events⟩

/-- Phase 3 of `reconcile`: `for mon_name, p in list(procs.items()): if
p.poll() is not None: procs.pop(mon_name, None)`. -/
def sweepDead : List (String × Proc) → Table → List Event → Table × List Event
  | [], t, evs => (t, evs)
  | (m, p) :: rest, t, evs =>
    if (pollNow p).isSome then sweepDead rest (eraseTable t m) (evs ++ [Event.sweepPop m])
    else sweepDead rest t evs

/-- One `reconcile()` cycle, parameterised by the cycle's `needed` set
(as the list the `for` loops enumerate) and the launch oracle. -/
def reconcile (t : Table) (needed : List String) (launch : String → Except Unit Proc) : StepRes :=
  if (runStarts launch needed (runStops needed (t.map Prod.fst) t []).1).exc.isSome then
    ⟨(runStarts launch needed (runStops needed (t.map Prod.fst) t []).1).exc,
      (runStarts launch needed (runStops needed (t.map Prod.fst) t []).1).table,
      (runStops needed (t.map Prod.fst) t []).2 ++
        (runStarts launch needed (runStops needed (t.map Prod.fst) t []).1).events⟩
  else
    ⟨none,
      (sweepDead (runStarts launch needed (runStops needed (t.map Prod.fst) t []).1).table
        (runStarts launch needed (runStops needed (t.map Prod.fst) t []).1).table []).1,
      (runStops needed (t.map Prod.fst) t []).2 ++
        (runStarts launch needed (runStops needed (t.map Prod.fst) t []).1).events ++
        (sweepDead (runStarts launch needed (runStops needed (t.map Prod.fst) t []).1).table
          (runStarts launch needed (runStops needed (t.map Prod.fst) t []).1).table []).2⟩

/-! ### Config artifact model -/

/-- A JSON value (only the constructors the script writes). -/
inductive Jval where
  | str (s : String)
  | arr (elems : List Jval)
  | obj (fields : List (String × Jval))

/-- Stand-in for `Path.home()`. -/
def homePath : String := "~"

/-- `BASE_CONFIG = Path.home() / ".config/waybar/config.jsonc"`. -/
def BASE_CONFIG : String := homePath ++ "/.config/waybar/config.jsonc"

/-- `CACHE_DIR = Path.home() / ".cache/autobar"`. -/
def CACHE_DIR : String := homePath ++ "/.cache/autobar"

/-- `cfg = CACHE_DIR / f"waybar-{mon_name}.jsonc"`. -/
def cfgPathFor (mon : String) : String := CACHE_DIR ++ "/waybar-" ++ mon ++ ".jsonc"

/-- `tmp = cfg.with_suffix(".tmp")`. -/
def tmpPathFor (mon : String) : String := CACHE_DIR ++ "/waybar-" ++ mon ++ ".tmp"

/-- The document `json.dumps` serialises: exactly the two keys `"include"`
and `"output"`. -/
def configContent (mon : String) : Jval :=
  .obj [("include", .str BASE_CONFIG), ("output", .arr [.str mon])]

/-- The filesystem, path → parsed content of the file there. -/
def FS : Type := String → Option Jval

/-- `tmp.write_text(...)`. -/
def fsWrite (fs : FS) (p : String) (v : Jval) : FS :=
  fun q => if q = p then some v else fs q

/-- `tmp.replace(cfg)`: atomic rename. -/
def fsRename (fs : FS) (src dst : String) : FS :=
  fun q => if q = src then none else if q = dst then fs src else fs q

/-- `ensure_monitor_config(mon_name)`: write the wrapper config to a temp
file, rename it over the target, return the target path. -/
def ensure_monitor_config (fs : FS) (mon : String) : String × FS :=
  let cfg := cfgPathFor mon
  let tmp := tmpPathFor mon
  let fs1 := fsWrite fs tmp (configContent mon)
  let fs2 := fsRename fs1 tmp cfg
  (cfg, fs2)

/-! ### Sample values, used to instantiate the theorems -/

/-- A handle whose process never exits. -/
def proc0 : Proc := ⟨fun _ => none, 0, false, false⟩

/-- A handle whose process has already exited with code 0. -/
def procDead : Proc := ⟨fun _ => some 0, 0, false, false⟩

/-- A one-entry process table. -/
def procs0 : Table := [("DP-1", proc0)]

/-- A launch oracle that always succeeds with a live process. -/
def okLaunch : String → Except Unit Proc := fun _ => .ok proc0

/-- A monitor with name `DP-1`, active workspace 1. -/
def mon0 : Monitor := ⟨none, some "DP-1", none, some 0, some ⟨some 1⟩⟩

/-- A monitor with a usable name but no active workspace. -/
def monNoWs : Monitor := ⟨none, some "DP-1", none, some 0, none⟩

/-- Monitors sharing the name `X` bound to workspaces 1 and 2. -/
def monX1 : Monitor := ⟨none, some "X", none, some 0, some ⟨some 1⟩⟩

def monX2 : Monitor := ⟨none, some "X", none, some 1, some ⟨some 2⟩⟩

/-- A mapped, non-hidden client on workspace 1. -/
def cli1 : Client := ⟨some ⟨some 1⟩, some true, none⟩

/-- A hidden client on workspace 1. -/
def cliHidden : Client := ⟨some ⟨some 1⟩, some true, some true⟩

/-- A client on workspace 1 with no `mapped` field. -/
def cliUnmapped : Client := ⟨some ⟨some 1⟩, none, none⟩

/-! ### Lemmas about the visible-client tally -/

/-- One client's effect on one tally cell. -/
lemma countStep_apply (acc : Int → Nat) (c : Client) (w : Int) :
    countStep acc c w =
      acc w + (if clientWs c = some w ∧ c.mapped = some true ∧ c.hidden ≠ some true then 1 else 0) := by
  unfold countStep
  rcases hws : clientWs c with _ | ws
  · simp [hws]
  · rcases hm : c.mapped with _ | b
    · simp [hws, hm, Option.getD]
    · rcases b with _ | _
      · simp [hws, hm, Option.getD]
      · rcases hh : c.hidden with _ | hb
        · simp only [hws, hm, hh, Option.getD, Bool.not_true, Bool.false_eq_true, if_false]
          by_cases hw : w = ws <;> simp [hw, Option.some.injEq, eq_comm]
        · rcases hb with _ | _
          · simp only [hws, hm, hh, Option.getD, Bool.not_true, Bool.false_eq_true, if_false]
            by_cases hw : w = ws <;> simp [hw, Option.some.injEq, eq_comm]
          · simp [hws, hm, hh, Option.getD]

/-- Folding the tally from an arbitrary accumulator splits off the
accumulator pointwise. -/
lemma countsFold_split (cs : List Client) :
    ∀ (acc : Int → Nat) (w : Int),
      cs.foldl countStep acc w = acc w + cs.foldl countStep (fun _ => 0) w := by
  induction cs with
  | nil => intro acc w; simp
  | cons c cs ih =>
    intro acc w
    simp only [List.foldl_cons]
    rw [ih (countStep acc c), ih (countStep (fun _ => 0) c), countStep_apply,
      countStep_apply (fun _ => 0)]
    omega

/-- Prepending one client adds its (0 or 1) contribution to each cell. -/
lemma countsByWs_cons (c : Client) (cs : List Client) (w : Int) :
    countsByWs (c :: cs) w =
      countsByWs cs w +
        (if clientWs c = some w ∧ c.mapped = some true ∧ c.hidden ≠ some true then 1 else 0) := by
  unfold countsByWs
  simp only [List.foldl_cons]
  rw [countsFold_split, countStep_apply]
  omega

/-- A client that is unmapped (or has no mapped field) or hidden changes no
tally cell. -/
lemma countsByWs_cons_invisible (c : Client) (cs : List Client)
    (h : c.mapped ≠ some true ∨ c.hidden = some true) :
    countsByWs (c :: cs) = countsByWs cs := by
  funext w
  rw [countsByWs_cons]
  rcases h with h | h <;> simp [h]

/-! ### Lemmas about the config artifact -/

/-- The generated config path and its temp path differ (their suffixes
differ in length). -/
lemma cfgPathFor_ne_tmpPathFor (mon : String) : cfgPathFor mon ≠ tmpPathFor mon := by
  intro h
  have h2 := congrArg String.length h
  simp only [cfgPathFor, tmpPathFor, String.length_append] at h2
  have h6 : (".jsonc" : String).length = 6 := rfl
  have h4 : (".tmp" : String).length = 4 := rfl
  omega

/-- After `ensure_monitor_config`, the target path holds exactly the
two-key wrapper document and the temp file is gone. -/
lemma ensure_monitor_config_spec (fs : FS) (mon : String) :
    (ensure_monitor_config fs mon).1 = cfgPathFor mon ∧
      (ensure_monitor_config fs mon).2 (cfgPathFor mon) = some (configContent mon) ∧
      (ensure_monitor_config fs mon).2 (tmpPathFor mon) = none := by
  refine ⟨rfl, ?_, ?_⟩
  · simp [ensure_monitor_config, fsRename, fsWrite, cfgPathFor_ne_tmpPathFor mon]
  · simp [ensure_monitor_config, fsRename, fsWrite]

/-! ### Lemmas about the process table -/

/-- Number of table entries recorded under one key. -/
def countKey (t : Table) (k : String) : Nat :=
  t.countP fun e => decide (e.1 = k)

lemma lookupTable_dictInsert (t : Table) (k : String) (v : Proc) :
    lookupTable (dictInsert k v t) k = some v := by
  induction t with
  | nil => simp [dictInsert, lookupTable]
  | cons e rest ih =>
    unfold dictInsert
    by_cases h : e.1 = k <;> simp [h, lookupTable, ih]

lemma countKey_dictInsert_of_lookup_none (t : Table) (k : String) (v : Proc)
    (h : lookupTable t k = none) : countKey (dictInsert k v t) k = 1 := by
  induction t with
  | nil => simp [dictInsert, countKey, List.countP_cons, List.countP_nil]
  | cons e rest ih =>
    unfold lookupTable at h
    by_cases he : e.1 = k
    · simp [he] at h
    · simp only [he, if_false] at h
      unfold dictInsert countKey
      simp only [he, if_false, List.countP_cons, decide_eq_true_eq, if_false]
      have := ih h
      unfold countKey at this
      simp [this, he]

lemma eraseTable_eq_self_of_lookup_none (t : Table) (k : String)
    (h : lookupTable t k = none) : eraseTable t k = t := by
  induction t with
  | nil => rfl
  | cons e rest ih =>
    unfold lookupTable at h
    by_cases he : e.1 = k
    · simp [he] at h
    · simp only [he, if_false] at h
      unfold eraseTable at ih ⊢
      simp [List.filter_cons, he, ih h]

lemma lookupTable_eraseTable (t : Table) (k : String) :
    lookupTable (eraseTable t k) k = none := by
  induction t with
  | nil => rfl
  | cons e rest ih =>
    unfold eraseTable at ih ⊢
    by_cases he : e.1 = k <;> simp [List.filter_cons, he, lookupTable, ih]

/-- The table after `stop_waybar_for` is always the original table with the
key popped (also when the entry was absent or a termination step raised). -/
lemma stop_table_eq (t : Table) (mon : String) :
    (stop_waybar_for t mon).1 = eraseTable t mon := by
  unfold stop_waybar_for
  cases h : lookupTable t mon with
  | none => simpa using (eraseTable_eq_self_of_lookup_none t mon h).symm
  | some p => rfl

lemma stop_of_lookup_none (t : Table) (mon : String) (h : lookupTable t mon = none) :
    stop_waybar_for t mon = (t, [Event.stopCall mon]) := by
  simp [stop_waybar_for, h]

lemma count_sleep_cons_poll (l : List Event) :
    (Event.pollEv :: l).count Event.sleepEv = l.count Event.sleepEv := by
  simp [List.count_cons]

lemma count_sleep_cons_sleep (l : List Event) :
    (Event.sleepEv :: l).count Event.sleepEv = l.count Event.sleepEv + 1 := by
  simp [List.count_cons]

/-- The wait loop sleeps at most `fuel` times. -/
lemma waitLoop_count_sleep_le (p : Proc) :
    ∀ (i fuel : Nat), ((waitLoop p i fuel).1).count Event.sleepEv ≤ fuel := by
  intro i fuel
  induction fuel generalizing i with
  | zero => simp [waitLoop]
  | succ n ih =>
    unfold waitLoop
    cases h : (p.poll i).isSome with
    | true => simp [h, List.count_cons]
    | false =>
      simp only [h, Bool.false_eq_true, if_false, count_sleep_cons_poll, count_sleep_cons_sleep]
      have := ih (i + 1)
      omega

/-- Against a process that never reports an exit code, the wait loop runs
its full budget: it ends `fuel` ticks later having slept `fuel` times. -/
lemma waitLoop_always_alive (p : Proc) (h : ∀ k, p.poll k = none) :
    ∀ (i fuel : Nat),
      (waitLoop p i fuel).2 = i + fuel ∧
        ((waitLoop p i fuel).1).count Event.sleepEv = fuel := by
  intro i fuel
  induction fuel generalizing i with
  | zero => simp [waitLoop]
  | succ n ih =>
    unfold waitLoop
    simp only [h i, Option.isSome_none, Bool.false_eq_true, if_false,
      count_sleep_cons_poll, count_sleep_cons_sleep]
    obtain ⟨h1, h2⟩ := ih (i + 1)
    refine ⟨by rw [h1]; omega, by rw [h2]⟩

/-- The guard of `start_waybar_for` is false when no live entry exists. -/
lemma start_guard_false (t : Table) (mon : String)
    (h : ∀ p, lookupTable t mon = some p → pollNow p ≠ none) :
    ((lookupTable t mon).map fun p => (pollNow p).isNone).getD false = false := by
  cases hl : lookupTable t mon with
  | none => rfl
  | some p =>
    have hne := h p hl
    cases hp : pollNow p with
    | none => exact absurd hp hne
    | some c => simp [hp]

/-! ### Claim theorems for the supervisor operations -/

/-- C2: `stop(output)` never raises: with no table entry it is a no-op
(twice in a row as well); otherwise it requests graceful termination when
the process is alive, sleeps at most 20 fixed intervals, force-kills if
the process outlives the bounded wait, swallows the oracle errors of both
termination attempts, and in every case (any oracle) the output's entry is
removed from the table before the call returns. -/
theorem stop_is_total_and_always_pops (t : Table) (mon : String) :
    (stop_waybar_for t mon).1 = eraseTable t mon ∧
    lookupTable (stop_waybar_for t mon).1 mon = none ∧
    (lookupTable t mon = none →
      stop_waybar_for t mon = (t, [Event.stopCall mon]) ∧
      stop_waybar_for (stop_waybar_for t mon).1 mon = (t, [Event.stopCall mon])) ∧
    (∀ p, lookupTable t mon = some p → pollNow p = none →
      Event.terminateEv mon ∈ (stop_waybar_for t mon).2) ∧
    (stop_waybar_for t mon).2.count Event.sleepEv ≤ 20 ∧
    (∀ p, lookupTable t mon = some p → (∀ k, p.poll k = none) → p.terminateRaises = false →
      Event.killEv mon ∈ (stop_waybar_for t mon).2 ∧
      (stop_waybar_for t mon).2.count Event.sleepEv = 20) := by
  refine ⟨stop_table_eq t mon, ?_, ?_, ?_, ?_, ?_⟩
  · rw [stop_table_eq]; exact lookupTable_eraseTable t mon
  · intro h
    have h1 := stop_of_lookup_none t mon h
    refine ⟨h1, ?_⟩
    rw [h1]
    exact stop_of_lookup_none t mon h
  · intro p hp hpoll
    unfold stop_waybar_for
    rw [hp]
    simp only [hpoll, Option.isSome_none, Bool.false_eq_true, if_false]
    cases p.terminateRaises <;> simp
  · unfold stop_waybar_for
    cases hl : lookupTable t mon with
    | none => simp [List.count_cons]
    | some p =>
      simp only
      cases hps : (pollNow p).isSome with
      | true => simp [List.count_cons]
      | false =>
        cases hr : p.terminateRaises with
        | true => simp [List.count_cons]
        | false =>
          simp only [Bool.false_eq_true, if_false, List.count_cons, List.count_append]
          have hb := waitLoop_count_sleep_le p p.idx 20
          cases hfin : (p.poll (waitLoop p p.idx 20).2).isSome <;>
            simp [List.count_cons, List.count_nil] <;> omega
  · intro p hp hall hterm
    unfold stop_waybar_for
    rw [hp]
    have hpn : pollNow p = none := hall p.idx
    obtain ⟨hend, hcnt⟩ := waitLoop_always_alive p hall p.idx 20
    have hfin : (p.poll (waitLoop p p.idx 20).2).isSome = false := by
      rw [hend, hall (p.idx + 20)]; rfl
    simp only [hpn, Option.isSome_none, Bool.false_eq_true, if_false, hterm, hfin,
      List.count_cons, List.count_append]
    constructor
    · simp
    · simp [hcnt, List.count_cons]

/-- C3: `start(output)` is a no-op while the recorded process is alive
(liveness read from the handle): no launch, no config write, table
unchanged; a dead recorded process is replaced; and two successive starts
with no intervening stop yield one table entry and one launch. -/
theorem start_noop_while_alive (t : Table) (mon : String) (launch : Except Unit Proc) (q : Proc) :
    (∀ p, lookupTable t mon = some p → pollNow p = none →
      start_waybar_for t mon launch = ⟨none, t, [Event.startCall mon]⟩) ∧
    (∀ p, lookupTable t mon = some p → pollNow p ≠ none →
      (start_waybar_for t mon (.ok q)).table = dictInsert mon q t ∧
      Event.launchEv mon ∈ (start_waybar_for t mon (.ok q)).events) ∧
    (lookupTable t mon = none → pollNow q = none →
      (start_waybar_for t mon (.ok q)).table = dictInsert mon q t ∧
      start_waybar_for (start_waybar_for t mon (.ok q)).table mon launch =
        ⟨none, (start_waybar_for t mon (.ok q)).table, [Event.startCall mon]⟩ ∧
      countKey (start_waybar_for t mon (.ok q)).table mon = 1 ∧
      (start_waybar_for t mon (.ok q)).events.count (Event.launchEv mon) = 1) := by
  refine ⟨?_, ?_, ?_⟩
  · intro p hp hpoll
    unfold start_waybar_for
    rw [hp]
    simp [hpoll]
  · intro p hp hpoll
    unfold start_waybar_for
    rw [hp]
    cases hq : pollNow p with
    | none => exact absurd hq hpoll
    | some c => simp [hq]
  · intro hl hq
    have htab : (start_waybar_for t mon (.ok q)).table = dictInsert mon q t := by
      unfold start_waybar_for
      rw [hl]
      rfl
    refine ⟨htab, ?_, ?_, ?_⟩
    · rw [htab]
      unfold start_waybar_for
      rw [lookupTable_dictInsert, ← htab]
      simp [hq]
    · rw [htab]
      exact countKey_dictInsert_of_lookup_none t mon q hl
    · unfold start_waybar_for
      rw [hl]
      simp [List.count_cons]

/-- C8: when the launch raises inside `start(output)` (and no live prior
instance short-circuits the call), the exception escapes with the table
exactly as before — no entry recorded — and a later successful `start`
for the still-desired output launches and records the process. -/
theorem start_launch_failure_keeps_table (t : Table) (mon : String)
    (hnolive : ∀ p, lookupTable t mon = some p → pollNow p ≠ none) :
    (start_waybar_for t mon (.error ())).exc = some () ∧
    (start_waybar_for t mon (.error ())).table = t ∧
    Event.launchEv mon ∉ (start_waybar_for t mon (.error ())).events ∧
    (∀ q, (start_waybar_for t mon (.ok q)).table = dictInsert mon q t ∧
      Event.launchEv mon ∈ (start_waybar_for t mon (.ok q)).events) := by
  have hguard := start_guard_false t mon hnolive
  refine ⟨?_, ?_, ?_, ?_⟩
  · unfold start_waybar_for
    rw [hguard]
    rfl
  · unfold start_waybar_for
    rw [hguard]
    rfl
  · unfold start_waybar_for
    rw [hguard]
    simp
  · intro q
    unfold start_waybar_for
    rw [hguard]
    exact ⟨rfl, by simp⟩

/-- C9: `ensure_monitor_config` returns the deterministic per-output path
under the cache directory; afterwards that path holds the JSON document
with exactly the keys `"include"` (the base config path) and `"output"`
(the one-element list with the output name); the write goes through a temp
file renamed over the target (which afterwards no longer exists); and a
second call yields the same path and the same content. -/
theorem ensure_monitor_config_artifact (fs : FS) (mon : String) :
    (ensure_monitor_config fs mon).1 = cfgPathFor mon ∧
    (ensure_monitor_config fs mon).2 (cfgPathFor mon) =
      some (Jval.obj [("include", Jval.str BASE_CONFIG), ("output", Jval.arr [Jval.str mon])]) ∧
    (ensure_monitor_config fs mon).2 =
      fsRename (fsWrite fs (tmpPathFor mon) (configContent mon)) (tmpPathFor mon) (cfgPathFor mon) ∧
    (ensure_monitor_config fs mon).2 (tmpPathFor mon) = none ∧
    (ensure_monitor_config (ensure_monitor_config fs mon).2 mon).1 =
      (ensure_monitor_config fs mon).1 ∧
    (ensure_monitor_config (ensure_monitor_config fs mon).2 mon).2 (cfgPathFor mon) =
      (ensure_monitor_config fs mon).2 (cfgPathFor mon) := by
  obtain ⟨h1, h2, h3⟩ := ensure_monitor_config_spec fs mon
  obtain ⟨g1, g2, g3⟩ := ensure_monitor_config_spec (ensure_monitor_config fs mon).2 mon
  exact ⟨h1, h2, rfl, h3, g1.trans h1.symm, g2.trans h2.symm⟩

/-- C10: a client contributes one unit to exactly its workspace's tally
iff its workspace id is present, its `mapped` field is present and true,
and its `hidden` field is absent or false; in particular a client lacking
the `mapped` field is never counted. -/
theorem tally_visibility_rule (cs : List Client) (c : Client) (w : Int) :
    countsByWs (c :: cs) w =
      countsByWs cs w +
        (if clientWs c = some w ∧ c.mapped = some true ∧ c.hidden ≠ some true then 1 else 0) ∧
    (c.mapped = none → countsByWs (c :: cs) = countsByWs cs) := by
  refine ⟨countsByWs_cons c cs w, ?_⟩
  intro hm
  exact countsByWs_cons_invisible c cs (Or.inl (by simp [hm]))

theorem stop_is_total_and_always_pops_witness :
    lookupTable procs0 "DP-1" = some proc0 ∧
    (∀ k, proc0.poll k = none) ∧ proc0.terminateRaises = false ∧
    (Event.killEv "DP-1" ∈ (stop_waybar_for procs0 "DP-1").2 ∧
      (stop_waybar_for procs0 "DP-1").2.count Event.sleepEv = 20) :=
  by
  refine ⟨rfl, fun _ => rfl, rfl, ?_⟩
  exact (stop_is_total_and_always_pops procs0 "DP-1").2.2.2.2.2 proc0 rfl (fun _ => rfl) rfl

theorem start_noop_while_alive_witness :
    lookupTable ([] : Table) "DP-1" = none ∧ pollNow proc0 = none ∧
    ((start_waybar_for [] "DP-1" (.ok proc0)).table = dictInsert "DP-1" proc0 [] ∧
      start_waybar_for (start_waybar_for [] "DP-1" (.ok proc0)).table "DP-1" (.ok proc0) =
        ⟨none, (start_waybar_for [] "DP-1" (.ok proc0)).table, [Event.startCall "DP-1"]⟩ ∧
      countKey (start_waybar_for [] "DP-1" (.ok proc0)).table "DP-1" = 1 ∧
      (start_waybar_for [] "DP-1" (.ok proc0)).events.count (Event.launchEv "DP-1") = 1) :=
  ⟨rfl, rfl, (start_noop_while_alive [] "DP-1" (.ok proc0) proc0).2.2 rfl rfl⟩

theorem start_launch_failure_keeps_table_witness :
    (∀ p, lookupTable ([] : Table) "DP-1" = some p → pollNow p ≠ none) ∧
    ((start_waybar_for [] "DP-1" (.error ())).exc = some () ∧
      (start_waybar_for [] "DP-1" (.error ())).table = [] ∧
      Event.launchEv "DP-1" ∉ (start_waybar_for [] "DP-1" (.error ())).events ∧
      (∀ q, (start_waybar_for [] "DP-1" (.ok q)).table = dictInsert "DP-1" q [] ∧
        Event.launchEv "DP-1" ∈ (start_waybar_for [] "DP-1" (.ok q)).events)) :=
  by
  have h := start_launch_failure_keeps_table [] "DP-1" (fun _ h => nomatch h)
  refine ⟨?_, ?_⟩
  · exact fun _ h => nomatch h
  · exact h

theorem tally_visibility_rule_witness :
    cliUnmapped.mapped = none ∧ countsByWs [cliUnmapped] = countsByWs [] :=
  ⟨rfl, (tally_visibility_rule [] cliUnmapped 1).2 rfl⟩

/-! ### Keys of the process table -/

/-- The key list of the table (`procs.keys()`). -/
def keysOf (t : Table) : List String := t.map Prod.fst

lemma mem_keysOf_eraseTable {t : Table} {k x : String}
    (h : x ∈ keysOf (eraseTable t k)) : x ∈ keysOf t ∧ x ≠ k := by
  simp only [keysOf, eraseTable, List.mem_map, List.mem_filter] at h
  obtain ⟨e, ⟨he, hp⟩, rfl⟩ := h
  refine ⟨List.mem_map.mpr ⟨e, he, rfl⟩, ?_⟩
  simpa using hp

lemma mem_keysOf_dictInsert {t : Table} {k x : String} {v : Proc}
    (h : x ∈ keysOf (dictInsert k v t)) : x = k ∨ x ∈ keysOf t := by
  induction t with
  | nil => simpa [dictInsert, keysOf] using h
  | cons e rest ih =>
    unfold dictInsert at h
    by_cases he : e.1 = k
    · simp only [he, if_true, keysOf, List.map_cons, List.mem_cons] at h
      rcases h with h | h
      · exact Or.inl h
      · exact Or.inr (by simp [keysOf]; right; simpa [keysOf] using h)
    · simp only [he, if_false, keysOf, List.map_cons, List.mem_cons] at h
      rcases h with h | h
      · exact Or.inr (by simp [keysOf, h])
      · rcases ih (by simpa [keysOf] using h) with h' | h'
        · exact Or.inl h'
        · exact Or.inr (by simp [keysOf] at h' ⊢; exact Or.inr h')

lemma nodup_keysOf_eraseTable {t : Table} (k : String)
    (h : (keysOf t).Nodup) : (keysOf (eraseTable t k)).Nodup :=
  ((List.filter_sublist t).map Prod.fst).nodup h

lemma nodup_keysOf_dictInsert {t : Table} {k : String} {v : Proc}
    (h : (keysOf t).Nodup) : (keysOf (dictInsert k v t)).Nodup := by
  induction t with
  | nil => simp [dictInsert, keysOf]
  | cons e rest ih =>
    simp only [keysOf, List.map_cons, List.nodup_cons] at h
    obtain ⟨hn, hrest⟩ := h
    unfold dictInsert
    by_cases he : e.1 = k
    · simp only [he, if_true, keysOf, List.map_cons, List.nodup_cons]
      exact ⟨by rw [← he]; exact hn, hrest⟩
    · simp only [he, if_false, keysOf, List.map_cons, List.nodup_cons]
      refine ⟨?_, ih hrest⟩
      intro hmem
      rcases mem_keysOf_dictInsert hmem with h' | h'
      · exact he h'
      · exact hn h'

/-! ### Event classification -/

/-- Events the wait loop can emit. -/
lemma waitLoop_events (p : Proc) :
    ∀ (i fuel : Nat) (e : Event), e ∈ (waitLoop p i fuel).1 →
      e = Event.pollEv ∨ e = Event.sleepEv := by
  intro i fuel
  induction fuel generalizing i with
  | zero => intro e h; simp [waitLoop] at h
  | succ n ih =>
    intro e h
    unfold waitLoop at h
    cases hp : (p.poll i).isSome with
    | true =>
      rw [hp] at h
      simp at h
      exact Or.inl h
    | false =>
      rw [hp] at h
      simp only [Bool.false_eq_true, if_false, List.mem_cons] at h
      rcases h with h | h | h
      · exact Or.inl h
      · exact Or.inr h
      · exact ih (i + 1) e h

/-- The trace of a `stop` call starts with its call marker. -/
lemma stop_events_head (t : Table) (mon : String) :
    ∃ rest, (stop_waybar_for t mon).2 = Event.stopCall mon :: rest := by
  unfold stop_waybar_for
  cases lookupTable t mon <;> exact ⟨_, rfl⟩

/-- A `stop` call emits no `startCall` event. -/
lemma stop_events_no_startCall (t : Table) (mon : String) :
    ∀ a, Event.startCall a ∉ (stop_waybar_for t mon).2 := by
  intro a hmem
  unfold stop_waybar_for at hmem
  cases hl : lookupTable t mon with
  | none => rw [hl] at hmem; simp at hmem
  | some p =>
    rw [hl] at hmem
    dsimp only at hmem
    simp only [List.mem_cons] at hmem
    rcases hmem with h | h
    · exact Event.noConfusion h
    · cases hps : (pollNow p).isSome with
      | true => rw [hps] at h; simp at h
      | false =>
        rw [hps] at h
        simp only [Bool.false_eq_true, if_false] at h
        cases hr : p.terminateRaises with
        | true => rw [hr] at h; simp at h
        | false =>
          rw [hr] at h
          simp only [Bool.false_eq_true, if_false, List.mem_cons, List.mem_append] at h
          rcases h with h | h | h
          · exact Event.noConfusion h
          · rcases waitLoop_events p p.idx 20 _ h with h' | h' <;> exact Event.noConfusion h'
          · cases hfin : (p.poll (waitLoop p p.idx 20).2).isSome <;> rw [hfin] at h <;> simp at h

/-- The trace of a `start` call starts with its call marker. -/
lemma start_events_head (t : Table) (mon : String) (launch : Except Unit Proc) :
    ∃ rest, (start_waybar_for t mon launch).events = Event.startCall mon :: rest := by
  unfold start_waybar_for
  by_cases hg : ((lookupTable t mon).map fun p => (pollNow p).isNone).getD false
  · rw [if_pos hg]; exact ⟨_, rfl⟩
  · rw [if_neg hg]; cases launch <;> exact ⟨_, rfl⟩

/-- A `start` call emits no `stopCall` event. -/
lemma start_events_no_stopCall (t : Table) (mon : String) (launch : Except Unit Proc) :
    ∀ a, Event.stopCall a ∉ (start_waybar_for t mon launch).events := by
  intro a hmem
  unfold start_waybar_for at hmem
  by_cases hg : ((lookupTable t mon).map fun p => (pollNow p).isNone).getD false
  · rw [if_pos hg] at hmem; simp at hmem
  · rw [if_neg hg] at hmem; cases launch <;> simp at hmem

lemma mem_eraseTable {t : Table} {k : String} {e : String × Proc}
    (h : e ∈ eraseTable t k) : e ∈ t ∧ e.1 ≠ k := by
  simp only [eraseTable, List.mem_filter, Bool.not_eq_eq_eq_not, Bool.not_true,
    decide_eq_false_iff_not] at h
  exact ⟨h.1, h.2⟩

/-! ### Phase 1: the stop loop -/

lemma runStops_events_mono (needed : List String) :
    ∀ (ks : List String) (t : Table) (evs : List Event),
      ∃ tail, (runStops needed ks t evs).2 = evs ++ tail := by
  intro ks
  induction ks with
  | nil => intro t evs; exact ⟨[], (List.append_nil evs).symm⟩
  | cons k ks ih =>
    intro t evs
    unfold runStops
    by_cases hk : k ∈ needed
    · rw [if_pos hk]; exact ih t evs
    · rw [if_neg hk]
      obtain ⟨tail, htail⟩ := ih (stop_waybar_for t k).1 (evs ++ (stop_waybar_for t k).2)
      exact ⟨(stop_waybar_for t k).2 ++ tail, by rw [htail, List.append_assoc]⟩

lemma runStops_events_no_startCall (needed : List String) :
    ∀ (ks : List String) (t : Table) (evs : List Event) (a : String),
      (∀ b, Event.startCall b ∉ evs) →
      Event.startCall a ∉ (runStops needed ks t evs).2 := by
  intro ks
  induction ks with
  | nil => intro t evs a hevs; exact hevs a
  | cons k ks ih =>
    intro t evs a hevs
    unfold runStops
    by_cases hk : k ∈ needed
    · rw [if_pos hk]; exact ih t evs a hevs
    · rw [if_neg hk]
      refine ih _ _ a ?_
      intro b hb
      rcases List.mem_append.mp hb with h | h
      · exact hevs b h
      · exact stop_events_no_startCall t k b h

lemma runStops_stopCall_mem (needed : List String) :
    ∀ (ks : List String) (t : Table) (evs : List Event) (a : String),
      a ∈ ks → a ∉ needed → Event.stopCall a ∈ (runStops needed ks t evs).2 := by
  intro ks
  induction ks with
  | nil => intro t evs a ha; exact absurd ha (List.not_mem_nil a)
  | cons k ks ih =>
    intro t evs a ha hnot
    unfold runStops
    rcases List.mem_cons.mp ha with rfl | ha'
    · rw [if_neg hnot]
      obtain ⟨tail, htail⟩ := runStops_events_mono needed ks (stop_waybar_for t a).1
        (evs ++ (stop_waybar_for t a).2)
      rw [htail]
      refine List.mem_append_left _ (List.mem_append_right _ ?_)
      obtain ⟨rest, hrest⟩ := stop_events_head t a
      rw [hrest]
      exact List.mem_cons_self _ _
    · by_cases hk : k ∈ needed
      · rw [if_pos hk]; exact ih _ _ a ha' hnot
      · rw [if_neg hk]; exact ih _ _ a ha' hnot

lemma runStops_keys_subset (needed : List String) :
    ∀ (ks : List String) (t : Table) (evs : List Event) (x : String),
      x ∈ keysOf (runStops needed ks t evs).1 → x ∈ keysOf t := by
  intro ks
  induction ks with
  | nil => intro t evs x h; exact h
  | cons k ks ih =>
    intro t evs x h
    unfold runStops at h
    by_cases hk : k ∈ needed
    · rw [if_pos hk] at h; exact ih t evs x h
    · rw [if_neg hk] at h
      have h1 := ih _ _ x h
      rw [stop_table_eq] at h1
      exact (mem_keysOf_eraseTable h1).1

lemma runStops_keys_in_needed (needed : List String) :
    ∀ (ks : List String) (t : Table) (evs : List Event) (x : String),
      x ∈ keysOf (runStops needed ks t evs).1 → x ∈ ks → x ∈ needed := by
  intro ks
  induction ks with
  | nil => intro t evs x _ hx; exact absurd hx (List.not_mem_nil x)
  | cons k ks ih =>
    intro t evs x h hx
    unfold runStops at h
    by_cases hk : k ∈ needed
    · rw [if_pos hk] at h
      rcases List.mem_cons.mp hx with rfl | hx'
      · exact hk
      · exact ih _ _ x h hx'
    · rw [if_neg hk] at h
      have hsub := runStops_keys_subset needed ks _ _ x h
      rw [stop_table_eq] at hsub
      obtain ⟨_, hne⟩ := mem_keysOf_eraseTable hsub
      rcases List.mem_cons.mp hx with rfl | hx'
      · exact absurd rfl hne
      · exact ih _ _ x h hx'

lemma runStops_nodup (needed : List String) :
    ∀ (ks : List String) (t : Table) (evs : List Event),
      (keysOf t).Nodup → (keysOf (runStops needed ks t evs).1).Nodup := by
  intro ks
  induction ks with
  | nil => intro t evs h; exact h
  | cons k ks ih =>
    intro t evs h
    unfold runStops
    by_cases hk : k ∈ needed
    · rw [if_pos hk]; exact ih t evs h
    · rw [if_neg hk]
      refine ih _ _ ?_
      rw [stop_table_eq]
      exact nodup_keysOf_eraseTable k h

lemma runStops_empty_needed :
    ∀ (ks : List String) (t : Table) (evs : List Event),
      (∀ e ∈ t, e.1 ∈ ks) → (runStops [] ks t evs).1 = [] := by
  intro ks
  induction ks with
  | nil =>
    intro t evs h
    cases t with
    | nil => rfl
    | cons e rest => exact absurd (h e (List.mem_cons_self e rest)) (List.not_mem_nil e.1)
  | cons k ks ih =>
    intro t evs h
    unfold runStops
    rw [if_neg (List.not_mem_nil k)]
    refine ih _ _ ?_
    intro e he
    rw [stop_table_eq] at he
    obtain ⟨het, hne⟩ := mem_eraseTable he
    rcases List.mem_cons.mp (h e het) with h' | h'
    · exact absurd h' hne
    · exact h'

/-! ### Phase 2: the start loop -/

lemma start_keys {t : Table} {mon : String} {launch : Except Unit Proc} {x : String}
    (h : x ∈ keysOf (start_waybar_for t mon launch).table) : x ∈ keysOf t ∨ x = mon := by
  unfold start_waybar_for at h
  by_cases hg : ((lookupTable t mon).map fun p => (pollNow p).isNone).getD false
  · rw [if_pos hg] at h; exact Or.inl h
  · rw [if_neg hg] at h
    cases launch with
    | error e => exact Or.inl h
    | ok q =>
      rcases mem_keysOf_dictInsert h with h' | h'
      · exact Or.inr h'
      · exact Or.inl h'

lemma start_nodup {t : Table} {mon : String} {launch : Except Unit Proc}
    (h : (keysOf t).Nodup) : (keysOf (start_waybar_for t mon launch).table).Nodup := by
  unfold start_waybar_for
  by_cases hg : ((lookupTable t mon).map fun p => (pollNow p).isNone).getD false
  · rw [if_pos hg]; exact h
  · rw [if_neg hg]
    cases launch with
    | error e => exact h
    | ok q => exact nodup_keysOf_dictInsert h

lemma runStarts_events_no_stopCall (launch : String → Except Unit Proc) :
    ∀ (ns : List String) (t : Table) (a : String),
      Event.stopCall a ∉ (runStarts launch ns t).events := by
  intro ns
  induction ns with
  | nil => intro t a h; exact absurd h (List.not_mem_nil _)
  | cons mon rest ih =>
    intro t a h
    unfold runStarts at h
    by_cases he : (start_waybar_for t mon (launch mon)).exc.isSome
    · rw [if_pos he] at h
      exact start_events_no_stopCall t mon (launch mon) a h
    · rw [if_neg he] at h
      dsimp only at h
      rcases List.mem_append.mp h with h' | h'
      · exact start_events_no_stopCall t mon (launch mon) a h'
      · exact ih _ a h'

lemma runStarts_startCall_mem (launch : String → Except Unit Proc) :
    ∀ (ns : List String) (t : Table) (b : String),
      (runStarts launch ns t).exc = none → b ∈ ns →
      Event.startCall b ∈ (runStarts launch ns t).events := by
  intro ns
  induction ns with
  | nil => intro t b _ hb; exact absurd hb (List.not_mem_nil b)
  | cons mon rest ih =>
    intro t b hexc hb
    unfold runStarts at hexc ⊢
    by_cases he : (start_waybar_for t mon (launch mon)).exc.isSome
    · rw [if_pos he] at hexc
      rw [hexc] at he
      simp at he
    · rw [if_neg he] at hexc ⊢
      dsimp only at hexc ⊢
      rcases List.mem_cons.mp hb with rfl | hb'
      · obtain ⟨rest', hrest⟩ := start_events_head t b (launch b)
        refine List.mem_append_left _ ?_
        rw [hrest]
        exact List.mem_cons_self _ _
      · exact List.mem_append_right _ (ih _ b hexc hb')

lemma runStarts_keys (launch : String → Except Unit Proc) :
    ∀ (ns : List String) (t : Table) (x : String),
      x ∈ keysOf (runStarts launch ns t).table → x ∈ keysOf t ∨ x ∈ ns := by
  intro ns
  induction ns with
  | nil => intro t x h; exact Or.inl h
  | cons mon rest ih =>
    intro t x h
    unfold runStarts at h
    by_cases he : (start_waybar_for t mon (launch mon)).exc.isSome
    · rw [if_pos he] at h
      rcases start_keys h with h' | h'
      · exact Or.inl h'
      · exact Or.inr (by rw [h']; exact List.mem_cons_self _ _)
    · rw [if_neg he] at h
      dsimp only at h
      rcases ih _ x h with h' | h'
      · rcases start_keys h' with h'' | h''
        · exact Or.inl h''
        · exact Or.inr (by rw [h'']; exact List.mem_cons_self _ _)
      · exact Or.inr (List.mem_cons_of_mem _ h')

lemma runStarts_nodup (launch : String → Except Unit Proc) :
    ∀ (ns : List String) (t : Table),
      (keysOf t).Nodup → (keysOf (runStarts launch ns t).table).Nodup := by
  intro ns
  induction ns with
  | nil => intro t h; exact h
  | cons mon rest ih =>
    intro t h
    unfold runStarts
    by_cases he : (start_waybar_for t mon (launch mon)).exc.isSome
    · rw [if_pos he]; exact start_nodup h
    · rw [if_neg he]; exact ih _ (start_nodup h)

/-! ### Phase 3: the dead-process sweep -/

lemma sweepDead_keys :
    ∀ (items : List (String × Proc)) (t : Table) (evs : List Event) (x : String),
      x ∈ keysOf (sweepDead items t evs).1 → x ∈ keysOf t := by
  intro items
  induction items with
  | nil => intro t evs x h; exact h
  | cons e rest ih =>
    intro t evs x h
    unfold sweepDead at h
    by_cases hp : (pollNow e.2).isSome
    · rw [if_pos hp] at h
      exact (mem_keysOf_eraseTable (ih _ _ x h)).1
    · rw [if_neg hp] at h
      exact ih _ _ x h

lemma sweepDead_nodup :
    ∀ (items : List (String × Proc)) (t : Table) (evs : List Event),
      (keysOf t).Nodup → (keysOf (sweepDead items t evs).1).Nodup := by
  intro items
  induction items with
  | nil => intro t evs h; exact h
  | cons e rest ih =>
    intro t evs h
    unfold sweepDead
    by_cases hp : (pollNow e.2).isSome
    · rw [if_pos hp]; exact ih _ _ (nodup_keysOf_eraseTable e.1 h)
    · rw [if_neg hp]; exact ih _ _ h

lemma sweepDead_events :
    ∀ (items : List (String × Proc)) (t : Table) (evs : List Event) (e : Event),
      e ∈ (sweepDead items t evs).2 → e ∈ evs ∨ ∃ m, e = Event.sweepPop m := by
  intro items
  induction items with
  | nil => intro t evs e h; exact Or.inl h
  | cons it rest ih =>
    intro t evs e h
    unfold sweepDead at h
    by_cases hp : (pollNow it.2).isSome
    · rw [if_pos hp] at h
      rcases ih _ _ e h with h' | h'
      · rcases List.mem_append.mp h' with h'' | h''
        · exact Or.inl h''
        · exact Or.inr ⟨it.1, by simpa using h''⟩
      · exact Or.inr h'
    · rw [if_neg hp] at h
      exact ih _ _ e h

/-! ### Assembling one reconcile cycle -/

/-- In a list split as `l1 ++ l2` where `l1` holds all the stop-call
markers and `l2` all the start-call markers, every stop-call index
precedes every start-call index. -/
lemma index_lt_of_split {l1 l2 : List Event}
    (h1 : ∀ a, Event.startCall a ∉ l1) (h2 : ∀ a, Event.stopCall a ∉ l2) :
    ∀ (i j : Nat) (a b : String), (l1 ++ l2)[i]? = some (Event.stopCall a) →
      (l1 ++ l2)[j]? = some (Event.startCall b) → i < j := by
  intro i j a b hi hj
  have hilt : i < l1.length := by
    by_contra hge
    push_neg at hge
    rw [List.getElem?_append_right hge] at hi
    exact h2 a (List.getElem?_mem hi)
  have hjge : l1.length ≤ j := by
    by_contra hlt
    push_neg at hlt
    rw [List.getElem?_append] at hj
    rw [if_pos hlt] at hj
    exact h1 b (List.getElem?_mem hj)
  omega

lemma runStops_events_no_startCall_nil (needed ks : List String) (t : Table) (a : String) :
    Event.startCall a ∉ (runStops needed ks t []).2 :=
  runStops_events_no_startCall needed ks t [] a
    (fun b hb => absurd hb (List.not_mem_nil (Event.startCall b)))

lemma sweepDead_events_nil_no_stopCall (items : List (String × Proc)) (t : Table) (a : String) :
    Event.stopCall a ∉ (sweepDead items t []).2 := by
  intro h
  rcases sweepDead_events items t [] (Event.stopCall a) h with h' | ⟨m, hm⟩
  · exact absurd h' (List.not_mem_nil _)
  · exact Event.noConfusion hm

lemma sweepDead_events_nil_no_startCall (items : List (String × Proc)) (t : Table) (a : String) :
    Event.startCall a ∉ (sweepDead items t []).2 := by
  intro h
  rcases sweepDead_events items t [] (Event.startCall a) h with h' | ⟨m, hm⟩
  · exact absurd h' (List.not_mem_nil _)
  · exact Event.noConfusion hm

lemma reconcile_events_pos (t : Table) (ns : List String) (launch : String → Except Unit Proc)
    (hx : (runStarts launch ns (runStops ns (t.map Prod.fst) t []).1).exc.isSome) :
    (reconcile t ns launch).events =
      (runStops ns (t.map Prod.fst) t []).2 ++
        (runStarts launch ns (runStops ns (t.map Prod.fst) t []).1).events := by
  unfold reconcile
  rw [if_pos hx]

lemma reconcile_exc_pos (t : Table) (ns : List String) (launch : String → Except Unit Proc)
    (hx : (runStarts launch ns (runStops ns (t.map Prod.fst) t []).1).exc.isSome) :
    (reconcile t ns launch).exc =
      (runStarts launch ns (runStops ns (t.map Prod.fst) t []).1).exc := by
  unfold reconcile
  rw [if_pos hx]

lemma reconcile_table_pos (t : Table) (ns : List String) (launch : String → Except Unit Proc)
    (hx : (runStarts launch ns (runStops ns (t.map Prod.fst) t []).1).exc.isSome) :
    (reconcile t ns launch).table =
      (runStarts launch ns (runStops ns (t.map Prod.fst) t []).1).table := by
  unfold reconcile
  rw [if_pos hx]

lemma reconcile_events_neg (t : Table) (ns : List String) (launch : String → Except Unit Proc)
    (hx : ¬(runStarts launch ns (runStops ns (t.map Prod.fst) t []).1).exc.isSome) :
    (reconcile t ns launch).events =
      (runStops ns (t.map Prod.fst) t []).2 ++
        (runStarts launch ns (runStops ns (t.map Prod.fst) t []).1).events ++
        (sweepDead (runStarts launch ns (runStops ns (t.map Prod.fst) t []).1).table
          (runStarts launch ns (runStops ns (t.map Prod.fst) t []).1).table []).2 := by
  unfold reconcile
  rw [if_neg hx]

lemma reconcile_exc_neg (t : Table) (ns : List String) (launch : String → Except Unit Proc)
    (hx : ¬(runStarts launch ns (runStops ns (t.map Prod.fst) t []).1).exc.isSome) :
    (reconcile t ns launch).exc = none := by
  unfold reconcile
  rw [if_neg hx]

lemma reconcile_table_neg (t : Table) (ns : List String) (launch : String → Except Unit Proc)
    (hx : ¬(runStarts launch ns (runStops ns (t.map Prod.fst) t []).1).exc.isSome) :
    (reconcile t ns launch).table =
      (sweepDead (runStarts launch ns (runStops ns (t.map Prod.fst) t []).1).table
        (runStarts launch ns (runStops ns (t.map Prod.fst) t []).1).table []).1 := by
  unfold reconcile
  rw [if_neg hx]

/-- A tally that is zero everywhere selects nothing. -/
lemma needSet_zero_counts (counts : Int → Nat) (hz : ∀ w, counts w = 0) :
    ∀ (d : List (String × Int)) (s : Finset String), d.foldl (needStep counts) s = s := by
  intro d
  induction d with
  | nil => intro s; rfl
  | cons p d ih =>
    intro s
    have hstep : needStep counts s p = s := by
      unfold needStep
      rw [hz p.2]
      simp
    rw [List.foldl_cons, hstep, ih s]

/-- In an exception-free cycle every desired output receives its start
call. -/
lemma reconcile_startCall_mem (t : Table) (ns : List String)
    (launch : String → Except Unit Proc)
    (hnone : (reconcile t ns launch).exc = none) :
    ∀ b ∈ ns, Event.startCall b ∈ (reconcile t ns launch).events := by
  intro b hb
  by_cases hx : (runStarts launch ns (runStops ns (t.map Prod.fst) t []).1).exc.isSome
  · rw [reconcile_exc_pos t ns launch hx] at hnone
    rw [hnone] at hx
    simp at hx
  · have hexc : (runStarts launch ns (runStops ns (t.map Prod.fst) t []).1).exc = none := by
      cases hsome : (runStarts launch ns (runStops ns (t.map Prod.fst) t []).1).exc with
      | none => rfl
      | some e => rw [hsome] at hx; simp at hx
    rw [reconcile_events_neg t ns launch hx]
    exact List.mem_append_left _ (List.mem_append_right _
      (runStarts_startCall_mem launch ns _ b hexc hb))

/-- C4: within one reconcile cycle every stop-call marker strictly
precedes every start-call marker in the event trace; each output in the
table but outside the cycle's desired set does get its stop call, and — in
a cycle that raises no launch exception — each desired output gets its
start call. -/
theorem stops_precede_starts (t : Table) (ns : List String)
    (launch : String → Except Unit Proc) :
    (∀ (i j : Nat) (a b : String),
      (reconcile t ns launch).events[i]? = some (Event.stopCall a) →
      (reconcile t ns launch).events[j]? = some (Event.startCall b) → i < j) ∧
    (∀ a, a ∈ keysOf t → a ∉ ns → Event.stopCall a ∈ (reconcile t ns launch).events) ∧
    ((reconcile t ns launch).exc = none →
      ∀ b ∈ ns, Event.startCall b ∈ (reconcile t ns launch).events) := by
  by_cases hx : (runStarts launch ns (runStops ns (t.map Prod.fst) t []).1).exc.isSome
  · refine ⟨?_, ?_, ?_⟩
    · rw [reconcile_events_pos t ns launch hx]
      exact index_lt_of_split (runStops_events_no_startCall_nil ns (t.map Prod.fst) t)
        (runStarts_events_no_stopCall launch ns _)
    · intro a ha hnot
      rw [reconcile_events_pos t ns launch hx]
      exact List.mem_append_left _ (runStops_stopCall_mem ns (t.map Prod.fst) t [] a ha hnot)
    · intro hnone
      rw [reconcile_exc_pos t ns launch hx] at hnone
      rw [hnone] at hx
      simp at hx
  · refine ⟨?_, ?_, ?_⟩
    · rw [reconcile_events_neg t ns launch hx, List.append_assoc]
      refine index_lt_of_split (runStops_events_no_startCall_nil ns (t.map Prod.fst) t) ?_
      intro a ha
      rcases List.mem_append.mp ha with h' | h'
      · exact runStarts_events_no_stopCall launch ns _ a h'
      · exact sweepDead_events_nil_no_stopCall _ _ a h'
    · intro a ha hnot
      rw [reconcile_events_neg t ns launch hx]
      exact List.mem_append_left _ (List.mem_append_left _
        (runStops_stopCall_mem ns (t.map Prod.fst) t [] a ha hnot))
    · exact fun hnone b hb => reconcile_startCall_mem t ns launch hnone b hb

theorem stops_precede_starts_witness :
    "DP-1" ∈ keysOf procs0 ∧ "DP-1" ∉ ["HDMI-1"] ∧
    Event.stopCall "DP-1" ∈ (reconcile procs0 ["HDMI-1"] okLaunch).events := by
  refine ⟨List.mem_cons_self _ _, by simp, ?_⟩
  exact (stops_precede_starts procs0 ["HDMI-1"] okLaunch).2.1 "DP-1"
    (List.mem_cons_self _ _) (by simp)

/-- C5: the reconcile cycle preserves the at-most-one-entry-per-output
invariant of the process table (distinct keys), and after a completed
(exception-free) cycle every key of the table belongs to the cycle's
desired set. -/
theorem table_entries_unique_and_desired (t : Table) (ns : List String)
    (launch : String → Except Unit Proc) (hnd : (keysOf t).Nodup) :
    (keysOf (runStops ns (t.map Prod.fst) t []).1).Nodup ∧
    (keysOf (runStarts launch ns (runStops ns (t.map Prod.fst) t []).1).table).Nodup ∧
    (keysOf (reconcile t ns launch).table).Nodup ∧
    ((reconcile t ns launch).exc = none →
      ∀ m ∈ keysOf (reconcile t ns launch).table, m ∈ ns) := by
  have hnd1 : (keysOf (runStops ns (t.map Prod.fst) t []).1).Nodup :=
    runStops_nodup ns (t.map Prod.fst) t [] hnd
  have hnd2 : (keysOf (runStarts launch ns (runStops ns (t.map Prod.fst) t []).1).table).Nodup :=
    runStarts_nodup launch ns _ hnd1
  refine ⟨hnd1, hnd2, ?_⟩
  by_cases hx : (runStarts launch ns (runStops ns (t.map Prod.fst) t []).1).exc.isSome
  · refine ⟨?_, ?_⟩
    · rw [reconcile_table_pos t ns launch hx]
      exact hnd2
    · intro hnone
      rw [reconcile_exc_pos t ns launch hx] at hnone
      rw [hnone] at hx
      simp at hx
  · refine ⟨?_, ?_⟩
    · rw [reconcile_table_neg t ns launch hx]
      exact sweepDead_nodup _ _ [] hnd2
    · intro _ m hm
      rw [reconcile_table_neg t ns launch hx] at hm
      have hm2 := sweepDead_keys _ _ [] m hm
      rcases runStarts_keys launch ns _ m hm2 with h' | h'
      · exact runStops_keys_in_needed ns (t.map Prod.fst) t [] m h'
          (runStops_keys_subset ns (t.map Prod.fst) t [] m h')
      · exact h'

theorem table_entries_unique_and_desired_witness :
    (keysOf procs0).Nodup ∧
    ((keysOf (runStops ["DP-1"] (procs0.map Prod.fst) procs0 []).1).Nodup ∧
      (keysOf (runStarts okLaunch ["DP-1"]
        (runStops ["DP-1"] (procs0.map Prod.fst) procs0 []).1).table).Nodup ∧
      (keysOf (reconcile procs0 ["DP-1"] okLaunch).table).Nodup ∧
      ((reconcile procs0 ["DP-1"] okLaunch).exc = none →
        ∀ m ∈ keysOf (reconcile procs0 ["DP-1"] okLaunch).table, m ∈ ["DP-1"])) :=
  ⟨by simp [procs0, keysOf], table_entries_unique_and_desired procs0 ["DP-1"] okLaunch
    (by simp [procs0, keysOf])⟩

/-- C6: a failed compositor query yields no data (`None` → empty list),
which makes the cycle's desired set empty for a failed monitors query and
for a failed clients query alike; a cycle with an empty desired set
completes without an exception, stopping every table entry; and a
following cycle with a successful query starts every desired output
again. -/
theorem query_failure_empty_desired :
    get_monitors none = [] ∧ get_clients none = [] ∧
    (∀ cdata, monitors_needing_waybar none cdata = ∅) ∧
    (∀ mdata, monitors_needing_waybar mdata none = ∅) ∧
    (∀ (t : Table) (launch : String → Except Unit Proc),
      (reconcile t [] launch).exc = none ∧ (reconcile t [] launch).table = []) ∧
    (∀ (t : Table) (ns : List String) (launch : String → Except Unit Proc),
      (reconcile t ns launch).exc = none →
      ∀ b ∈ ns, Event.startCall b ∈ (reconcile t ns launch).events) := by
  refine ⟨rfl, rfl, fun cdata => rfl, ?_, ?_, ?_⟩
  · intro mdata
    unfold monitors_needing_waybar needSet
    exact needSet_zero_counts (countsByWs (get_clients none)) (fun w => rfl) _ _
  · intro t launch
    have h1 : (runStops [] (t.map Prod.fst) t []).1 = [] :=
      runStops_empty_needed (t.map Prod.fst) t []
        (fun e he => List.mem_map_of_mem Prod.fst he)
    have hx : ¬(runStarts launch [] (runStops [] (t.map Prod.fst) t []).1).exc.isSome := by
      rw [h1]
      simp [runStarts]
    refine ⟨reconcile_exc_neg t [] launch hx, ?_⟩
    rw [reconcile_table_neg t [] launch hx, h1]
    rfl
  · intro t ns launch hnone b hb
    exact reconcile_startCall_mem t ns launch hnone b hb

theorem query_failure_empty_desired_witness :
    (reconcile ([] : Table) ["DP-1"] okLaunch).exc = none ∧
    Event.startCall "DP-1" ∈ (reconcile ([] : Table) ["DP-1"] okLaunch).events :=
  ⟨rfl, (query_failure_empty_desired).2.2.2.2.2 [] ["DP-1"] okLaunch rfl "DP-1"
    (List.mem_cons_self _ _)⟩

/-! ### The monitor-name fallback chain never yields an empty string -/

lemma toDigitsCore_len_ge (b : Nat) :
    ∀ (f n : Nat) (l : List Char), l.length ≤ (Nat.toDigitsCore b f n l).length := by
  intro f
  induction f with
  | zero => intro n l; exact Nat.le_refl _
  | succ f ih =>
    intro n l
    unfold Nat.toDigitsCore
    by_cases h : n / b = 0
    · rw [if_pos h]; simp
    · rw [if_neg h]
      calc l.length ≤ (Nat.digitChar (n % b) :: l).length := by simp
        _ ≤ _ := ih (n / b) _

lemma toDigitsCore_len_gt (b : Nat) :
    ∀ (f n : Nat) (l : List Char), 0 < f → l.length < (Nat.toDigitsCore b f n l).length := by
  intro f
  cases f with
  | zero => intro n l h; exact absurd h (Nat.lt_irrefl 0)
  | succ f =>
    intro n l _
    unfold Nat.toDigitsCore
    by_cases h : n / b = 0
    · rw [if_pos h]; simp
    · rw [if_neg h]
      calc l.length < (Nat.digitChar (n % b) :: l).length := by simp
        _ ≤ _ := toDigitsCore_len_ge b f (n / b) _

lemma natRepr_ne_empty (n : Nat) : Nat.repr n ≠ "" := by
  intro h
  have hdata : (Nat.toDigits 10 n) = [] := by
    have h2 := congrArg String.data h
    simpa [Nat.repr, List.asString] using h2
  have h3 := toDigitsCore_len_gt 10 (n + 1) n [] (Nat.succ_pos n)
  rw [show Nat.toDigitsCore 10 (n + 1) n [] = Nat.toDigits 10 n from rfl, hdata] at h3
  simp at h3

lemma intToString_ne_empty (i : Int) : toString i ≠ "" := by
  intro h
  cases i with
  | ofNat m =>
    exact natRepr_ne_empty m (by simpa [toString, Int.repr] using h)
  | negSucc m =>
    have h2 := congrArg String.length h
    simp [toString, Int.repr, String.length_append] at h2
    exact absurd h2.1 (by decide)

lemma strOfOptInt_ne_empty (o : Option Int) : strOfOptInt o ≠ "" := by
  cases o with
  | none => exact by decide
  | some i => exact intToString_ne_empty i

lemma pyOr_ne_empty (a : Option String) (b : String) (hb : b ≠ "") : pyOr a b ≠ "" := by
  cases a with
  | none => exact hb
  | some s =>
    by_cases hs : s = ""
    · simp only [pyOr, hs, if_true]
      exact hb
    · simp [pyOr, hs]

/-- `name or description or str(id)` is always a nonempty string: the last
fallback `str(...)` never yields `""`. -/
lemma monName_ne_empty (m : Monitor) : monName m ≠ "" :=
  pyOr_ne_empty _ _ (pyOr_ne_empty _ _ (strOfOptInt_ne_empty _))

/-! ### Characterizing `ws_by_mon` -/

lemma get_monitors_some (l : List Monitor) :
    get_monitors (some l) = l.filter fun m => !(m.disabled == some true) := by
  cases l with
  | nil => rfl
  | cons m rest => rfl

lemma get_clients_some (l : List Client) : get_clients (some l) = l := by
  cases l with
  | nil => rfl
  | cons c rest => rfl

lemma dictInsert_append {β : Type} (k : String) (v : β) :
    ∀ (d : List (String × β)), k ∉ d.map Prod.fst → dictInsert k v d = d ++ [(k, v)] := by
  intro d
  induction d with
  | nil => intro _; rfl
  | cons e rest ih =>
    intro h
    simp only [List.map_cons, List.mem_cons] at h
    push_neg at h
    unfold dictInsert
    rw [if_neg (fun he => h.1 he.symm), ih h.2]
    rfl

lemma mem_keys_dictInsert_iff {β : Type} (k x : String) (v : β) (d : List (String × β)) :
    (∃ w, (x, w) ∈ dictInsert k v d) ↔ x = k ∨ ∃ w, (x, w) ∈ d := by
  induction d with
  | nil => simp [dictInsert]
  | cons e rest ih =>
    unfold dictInsert
    by_cases he : e.1 = k
    · rw [if_pos he]
      constructor
      · rintro ⟨w, hw⟩
        rcases List.mem_cons.mp hw with h | h
        · exact Or.inl (congrArg Prod.fst h)
        · exact Or.inr ⟨w, List.mem_cons_of_mem _ h⟩
      · intro h
        rcases h with h | ⟨w, hw⟩
        · exact ⟨v, by rw [h]; exact List.mem_cons_self _ _⟩
        · rcases List.mem_cons.mp hw with h2 | h2
          · have hx : x = k := by
              have h3 := congrArg Prod.fst h2
              rw [he] at h3
              exact h3
            exact ⟨v, by rw [hx]; exact List.mem_cons_self _ _⟩
          · exact ⟨w, List.mem_cons_of_mem _ h2⟩
    · rw [if_neg he]
      constructor
      · rintro ⟨w, hw⟩
        rcases List.mem_cons.mp hw with h | h
        · exact Or.inr ⟨w, by rw [h]; exact List.mem_cons_self _ _⟩
        · rcases ih.mp ⟨w, h⟩ with h' | ⟨w', hw'⟩
          · exact Or.inl h'
          · exact Or.inr ⟨w', List.mem_cons_of_mem _ hw'⟩
      · rintro (rfl | ⟨w, hw⟩)
        · obtain ⟨w', hw'⟩ := ih.mpr (Or.inl rfl)
          exact ⟨w', List.mem_cons_of_mem _ hw'⟩
        · rcases List.mem_cons.mp hw with h | h
          · exact ⟨w, by rw [h]; exact List.mem_cons_self _ _⟩
          · obtain ⟨w', hw'⟩ := ih.mpr (Or.inr ⟨w, h⟩)
            exact ⟨w', List.mem_cons_of_mem _ hw'⟩

lemma mem_qualPairs (ms : List Monitor) (x : String) (w : Int) :
    (x, w) ∈ qualPairs ms ↔ ∃ m ∈ ms, activeWsId m = some w ∧ monName m = x := by
  unfold qualPairs
  rw [List.mem_filterMap]
  refine ⟨?_, ?_⟩
  · rintro ⟨m, hm, hf⟩
    rcases haw : activeWsId m with _ | w' <;> rw [haw] at hf
    · exact absurd hf (by simp)
    · dsimp only at hf
      by_cases hname : monName m = ""
      · rw [if_pos hname] at hf
        exact absurd hf (by simp)
      · rw [if_neg hname] at hf
        have h2 : (monName m, w') = (x, w) := Option.some.inj hf
        have hx : monName m = x := congrArg Prod.fst h2
        have hw : w' = w := congrArg Prod.snd h2
        exact ⟨m, hm, by rw [haw, hw], hx⟩
  · rintro ⟨m, hm, haw, hname⟩
    refine ⟨m, hm, ?_⟩
    rw [haw]
    dsimp only
    rw [if_neg (monName_ne_empty m), hname]

lemma qualPairs_keys_sublist (ms : List Monitor) :
    ((qualPairs ms).map Prod.fst).Sublist (ms.map monName) := by
  induction ms with
  | nil => simp [qualPairs]
  | cons m rest ih =>
    rcases haw : activeWsId m with _ | w
    · have hq : qualPairs (m :: rest) = qualPairs rest := by
        unfold qualPairs
        simp [List.filterMap_cons, haw]
      rw [hq, List.map_cons]
      exact ih.cons _
    · by_cases hname : monName m = ""
      · have hq : qualPairs (m :: rest) = qualPairs rest := by
          unfold qualPairs
          simp [List.filterMap_cons, haw, hname]
        rw [hq, List.map_cons]
        exact ih.cons _
      · have hq : qualPairs (m :: rest) = (monName m, w) :: qualPairs rest := by
          unfold qualPairs
          simp [List.filterMap_cons, haw, hname]
        rw [hq, List.map_cons, List.map_cons]
        exact ih.cons₂ _

lemma foldl_wsStep_eq (ms : List Monitor) :
    ∀ d : List (String × Int),
      (∀ x, x ∈ d.map Prod.fst → x ∉ (qualPairs ms).map Prod.fst) →
      ((qualPairs ms).map Prod.fst).Nodup →
      ms.foldl wsStep d = d ++ qualPairs ms := by
  induction ms with
  | nil => intro d _ _; simp [qualPairs]
  | cons m rest ih =>
    intro d hdis hnd
    rw [List.foldl_cons]
    rcases haw : activeWsId m with _ | w
    · have hstep : wsStep d m = d := by unfold wsStep; rw [haw]
      have hq : qualPairs (m :: rest) = qualPairs rest := by
        unfold qualPairs
        simp [List.filterMap_cons, haw]
      rw [hq] at hdis hnd
      rw [hstep, hq]
      exact ih d hdis hnd
    · by_cases hname : monName m = ""
      · have hstep : wsStep d m = d := by
          unfold wsStep
          rw [haw]
          dsimp only
          rw [if_pos hname]
        have hq : qualPairs (m :: rest) = qualPairs rest := by
          unfold qualPairs
          simp [List.filterMap_cons, haw, hname]
        rw [hq] at hdis hnd
        rw [hstep, hq]
        exact ih d hdis hnd
      · have hq : qualPairs (m :: rest) = (monName m, w) :: qualPairs rest := by
          unfold qualPairs
          simp [List.filterMap_cons, haw, hname]
        have hstep : wsStep d m = dictInsert (monName m) w d := by
          unfold wsStep
          rw [haw]
          dsimp only
          rw [if_neg hname]
        rw [hq] at hdis hnd
        simp only [List.map_cons, List.nodup_cons] at hnd
        obtain ⟨hn1, hn2⟩ := hnd
        have hkd : monName m ∉ d.map Prod.fst := by
          intro hmem
          exact hdis _ hmem (by simp)
        have hdis2 : ∀ x, x ∈ (d ++ [(monName m, w)]).map Prod.fst →
            x ∉ (qualPairs rest).map Prod.fst := by
          intro x hx
          rw [List.map_append] at hx
          rcases List.mem_append.mp hx with hx' | hx'
          · intro hc
            exact hdis x hx' (by simp [hc])
          · simp only [List.map_cons, List.map_nil, List.mem_singleton] at hx'
            rw [hx']
            exact hn1
        rw [hstep, dictInsert_append _ _ d hkd, ih (d ++ [(monName m, w)]) hdis2 hn2,
          hq, List.append_assoc]
        rfl

lemma wsByMon_eq_qualPairs (ms : List Monitor)
    (hnd : ((qualPairs ms).map Prod.fst).Nodup) : wsByMon ms = qualPairs ms := by
  unfold wsByMon
  have h := foldl_wsStep_eq ms [] (by intro x hx; simp at hx) hnd
  simpa using h

lemma mem_needSet (counts : Int → Nat) :
    ∀ (d : List (String × Int)) (s : Finset String) (x : String),
      x ∈ d.foldl (needStep counts) s ↔ x ∈ s ∨ ∃ p ∈ d, p.1 = x ∧ 0 < counts p.2 := by
  intro d
  induction d with
  | nil => intro s x; simp
  | cons p d ih =>
    intro s x
    rw [List.foldl_cons, ih]
    unfold needStep
    by_cases hc : 0 < counts p.2
    · rw [if_pos hc]
      constructor
      · rintro (hx | ⟨q, hq, hqx, hqc⟩)
        · rcases Finset.mem_insert.mp hx with rfl | hx'
          · exact Or.inr ⟨p, List.mem_cons_self _ _, rfl, hc⟩
          · exact Or.inl hx'
        · exact Or.inr ⟨q, List.mem_cons_of_mem _ hq, hqx, hqc⟩
      · rintro (hx | ⟨q, hq, hqx, hqc⟩)
        · exact Or.inl (Finset.mem_insert_of_mem hx)
        · rcases List.mem_cons.mp hq with rfl | hq'
          · exact Or.inl (by rw [← hqx]; exact Finset.mem_insert_self _ _)
          · exact Or.inr ⟨q, hq', hqx, hqc⟩
    · rw [if_neg hc]
      constructor
      · rintro (hx | ⟨q, hq, hqx, hqc⟩)
        · exact Or.inl hx
        · exact Or.inr ⟨q, List.mem_cons_of_mem _ hq, hqx, hqc⟩
      · rintro (hx | ⟨q, hq, hqx, hqc⟩)
        · exact Or.inl hx
        · rcases List.mem_cons.mp hq with rfl | hq'
          · exact absurd hqc hc
          · exact Or.inr ⟨q, hq', hqx, hqc⟩

lemma mem_keys_foldl_wsStep (ms : List Monitor) :
    ∀ (d : List (String × Int)) (x : String),
      (∃ w, (x, w) ∈ ms.foldl wsStep d) ↔
        (∃ w, (x, w) ∈ d) ∨ ∃ m ∈ ms, (activeWsId m).isSome ∧ monName m = x := by
  induction ms with
  | nil => intro d x; simp
  | cons m rest ih =>
    intro d x
    rw [List.foldl_cons]
    rcases haw : activeWsId m with _ | w
    · have hstep : wsStep d m = d := by unfold wsStep; rw [haw]
      rw [hstep, ih]
      constructor
      · rintro (h | ⟨m', hm', h1, h2⟩)
        · exact Or.inl h
        · exact Or.inr ⟨m', List.mem_cons_of_mem _ hm', h1, h2⟩
      · rintro (h | ⟨m', hm', h1, h2⟩)
        · exact Or.inl h
        · rcases List.mem_cons.mp hm' with rfl | hm''
          · rw [haw] at h1
            exact absurd h1 (by simp)
          · exact Or.inr ⟨m', hm'', h1, h2⟩
    · have hstep : wsStep d m = dictInsert (monName m) w d := by
        unfold wsStep
        rw [haw]
        dsimp only
        rw [if_neg (monName_ne_empty m)]
      rw [hstep, ih, mem_keys_dictInsert_iff]
      constructor
      · rintro ((h | h) | ⟨m', hm', h1, h2⟩)
        · exact Or.inr ⟨m, List.mem_cons_self _ _, by simp [haw], h.symm⟩
        · exact Or.inl h
        · exact Or.inr ⟨m', List.mem_cons_of_mem _ hm', h1, h2⟩
      · rintro (h | ⟨m', hm', h1, h2⟩)
        · exact Or.inl (Or.inr h)
        · rcases List.mem_cons.mp hm' with rfl | hm''
          · exact Or.inl (Or.inl h2.symm)
          · exact Or.inr ⟨m', hm'', h1, h2⟩

/-! ### Claim theorems for the desired-set computation -/

/-- C1 (amended): when the retained monitors bear pairwise distinct names,
`monitors_needing_waybar` returns exactly the set of names of retained
(non-disabled) monitors whose active workspace's visible tally is positive;
and — with no distinctness needed — prepending a hidden or unmapped client
to the client list never changes the resulting set. -/
theorem desired_set_matches_spec (mons : List Monitor) (clients : List Client) :
    (((get_monitors (some mons)).map monName).Nodup →
      monitors_needing_waybar (some mons) (some clients) = specDesiredSet mons clients) ∧
    (∀ c : Client, c.mapped ≠ some true ∨ c.hidden = some true →
      monitors_needing_waybar (some mons) (some (c :: clients)) =
        monitors_needing_waybar (some mons) (some clients)) := by
  constructor
  · intro hnd
    have hnd' : ((qualPairs (get_monitors (some mons))).map Prod.fst).Nodup :=
      (qualPairs_keys_sublist _).nodup hnd
    unfold monitors_needing_waybar
    rw [get_clients_some, wsByMon_eq_qualPairs _ hnd']
    ext x
    unfold needSet
    rw [mem_needSet]
    simp only [Finset.not_mem_empty, false_or]
    unfold specDesiredSet
    rw [List.mem_toFinset]
    constructor
    · rintro ⟨⟨px, pw⟩, hp, hpx, hpc⟩
      dsimp only at hpx hpc
      obtain ⟨m, hm, haw, hname⟩ := (mem_qualPairs _ _ _).mp hp
      refine List.mem_map.mpr ⟨m, List.mem_filter.mpr ⟨hm, ?_⟩, by rw [hname, hpx]⟩
      rw [haw]
      exact decide_eq_true hpc
    · intro hx
      obtain ⟨m, hm, hname⟩ := List.mem_map.mp hx
      obtain ⟨hm', hf⟩ := List.mem_filter.mp hm
      rcases haw : activeWsId m with _ | w
      · rw [haw] at hf
        exact absurd hf (by simp)
      · rw [haw] at hf
        have hc : 0 < countsByWs clients w := of_decide_eq_true hf
        exact ⟨(x, w), (mem_qualPairs _ _ _).mpr ⟨m, hm', haw, hname⟩, rfl, hc⟩
  · intro c hc
    unfold monitors_needing_waybar
    rw [get_clients_some, get_clients_some, countsByWs_cons_invisible c clients hc]

/-- Counterexample to C1 as frozen: two retained monitors share the name
`X`; the later binding (workspace 2, empty) overwrites the earlier one
(workspace 1, occupied), so the computed set is empty while the set of
names of retained monitors with a positive active-workspace tally is
`{X}`. -/
theorem desired_set_matches_spec_cex :
    monitors_needing_waybar (some [monX1, monX2]) (some [cli1]) = ∅ ∧
    specDesiredSet [monX1, monX2] [cli1] = {"X"} ∧
    monitors_needing_waybar (some [monX1, monX2]) (some [cli1]) ≠
      specDesiredSet [monX1, monX2] [cli1] := by
  refine ⟨by decide, by decide, by decide⟩

theorem desired_set_matches_spec_witness :
    ((get_monitors (some [mon0])).map monName).Nodup ∧
    monitors_needing_waybar (some [mon0]) (some [cli1]) = specDesiredSet [mon0] [cli1] ∧
    (cliHidden.mapped ≠ some true ∨ cliHidden.hidden = some true) ∧
    monitors_needing_waybar (some [mon0]) (some (cliHidden :: [cli1])) =
      monitors_needing_waybar (some [mon0]) (some [cli1]) :=
  ⟨by decide, (desired_set_matches_spec [mon0] [cli1]).1 (by decide), Or.inr rfl,
    (desired_set_matches_spec [mon0] [cli1]).2 cliHidden (Or.inr rfl)⟩

/-- C7 (amended): the monitor→workspace map retains exactly the
non-disabled monitors that possess an active workspace id; the name side
of the conjunction is vacuous because the fallback chain
`name or description or str(id)` always produces a usable (nonempty)
name.  A monitor with a usable name but no active workspace is dropped. -/
theorem monitor_map_retention (mons : List Monitor) (x : String) :
    (∃ w, (x, w) ∈ wsByMon (get_monitors (some mons))) ↔
      ∃ m ∈ mons, ¬(m.disabled = some true) ∧ (activeWsId m).isSome ∧ monName m = x := by
  rw [get_monitors_some]
  unfold wsByMon
  rw [mem_keys_foldl_wsStep]
  constructor
  · rintro (⟨w, hw⟩ | ⟨m, hm, h1, h2⟩)
    · exact absurd hw (List.not_mem_nil _)
    · obtain ⟨hm', hp⟩ := List.mem_filter.mp hm
      refine ⟨m, hm', ?_, h1, h2⟩
      simpa using hp
  · rintro ⟨m, hm, hdis, h1, h2⟩
    exact Or.inr ⟨m, List.mem_filter.mpr ⟨hm, by simpa using hdis⟩, h1, h2⟩

/-- Counterexample to C7 as frozen: a non-disabled monitor with the usable
name `DP-1` but no active workspace is dropped from the map entirely. -/
theorem monitor_map_retention_cex :
    monNoWs.disabled ≠ some true ∧ monName monNoWs = "DP-1" ∧
    wsByMon (get_monitors (some [monNoWs])) = [] := by
  refine ⟨by decide, by decide, rfl⟩

theorem monitor_map_retention_witness :
    ∃ w, ("DP-1", w) ∈ wsByMon (get_monitors (some [mon0])) :=
  (monitor_map_retention [mon0] "DP-1").mpr
    ⟨mon0, List.mem_cons_self _ _, by decide, by decide, rfl⟩

end Autobar
